import Mathlib

/-!
Verification of the seismic-geometry ingestion script (`main.py`).

Strings of the Python source are modelled as `List Char`.  The regular
expressions used by the source are embedded by a small backtracking matcher
(`matchSeq`) over sequences of quantified character classes, which is the
semantics of Python's `re` engine for the patterns appearing in the source
(each pattern is a concatenation of independently quantified character
classes and literals, matched greedily with backtracking, anchored by `^`
or searched left to right).
-/

namespace SeisMap

/-- ASCII letter class, `[a-zA-Z]` of the source's regexes. -/
def isLetterC (c : Char) : Bool :=
  decide ((65 ≤ c.toNat ∧ c.toNat ≤ 90) ∨ (97 ≤ c.toNat ∧ c.toNat ≤ 122))

/-- ASCII digit class, `[0-9]` of the source's regexes. -/
def isDigitC (c : Char) : Bool :=
  decide (48 ≤ c.toNat ∧ c.toNat ≤ 57)

/-- Separator class `[_-]` of the source's regexes (`_` is 95, `-` is 45). -/
def isSepC (c : Char) : Bool :=
  decide (c.toNat = 95 ∨ c.toNat = 45)

/-- Python's `\s` class restricted to ASCII: space, tab, newline, vertical
tab, form feed, carriage return. -/
def isWsC (c : Char) : Bool :=
  decide (c.toNat = 32 ∨ c.toNat = 9 ∨ c.toNat = 10 ∨ c.toNat = 11 ∨
          c.toNat = 12 ∨ c.toNat = 13)

/-- Uppercase ASCII letter. -/
def isUpperLetter (c : Char) : Bool :=
  decide (65 ≤ c.toNat ∧ c.toNat ≤ 90)

/-- Python `str.upper` on a single ASCII character: lowercase letters are
mapped to uppercase, everything else is unchanged.  (All characters reaching
`.upper()` in the source are ASCII: they come from `[a-zA-Z]`, `[0-9]`,
`'19'` and `'-'`.) -/
def upChar (c : Char) : Char :=
  if 97 ≤ c.toNat ∧ c.toNat ≤ 122 then Char.ofNat (c.toNat - 32) else c

/-- Python `str.lower` on a single ASCII character, used to model the
case-insensitive (`re.I`) literal comparison in `promax2meta`. -/
def lowChar (c : Char) : Char :=
  if 65 ≤ c.toNat ∧ c.toNat ≤ 90 then Char.ofNat (c.toNat + 32) else c

/-- `_chano` of the source: prefix a two-character year with `'19'`,
otherwise return it unchanged. -/
def _chano (ano : List Char) : List Char :=
  if ano.length = 2 then '1' :: '9' :: ano else ano

/-! ### A backtracking matcher for the source's regular expressions -/

/-- Quantifier of a regex atom: exactly one, `?`, `*` or `+` (all greedy,
as in the source's patterns). -/
inductive Quant where
  | one : Quant
  | opt : Quant
  | star : Quant
  | plus : Quant
deriving DecidableEq

/-- A regex atom: a character class with a greedy quantifier, possibly
capturing. -/
structure RElem where
  cls : Char → Bool
  q : Quant
  cap : Bool

/-- The list `[n, n-1, ..., 0]`: candidate repeat counts for a greedy `*`,
longest first. -/
def countdown : Nat → List Nat
  | 0 => [0]
  | n + 1 => (n + 1) :: countdown n

/-- The list `[n, n-1, ..., 1]`: candidate repeat counts for a greedy `+`,
longest first. -/
def countdownPos : Nat → List Nat
  | 0 => []
  | n + 1 => (n + 1) :: countdownPos n

/-- All ways a quantified class can consume a prefix of `s`, in the greedy
order in which a backtracking regex engine tries them: each entry is the
consumed prefix and the remaining suffix. -/
def splits (e : RElem) (s : List Char) : List (List Char × List Char) :=
  let t := s.takeWhile e.cls
  let r := s.dropWhile e.cls
  let ks : List Nat :=
    match e.q with
    | Quant.one => if t.length = 0 then [] else [1]
    | Quant.opt => if t.length = 0 then [0] else [1, 0]
    | Quant.star => countdown t.length
    | Quant.plus => countdownPos t.length
  ks.map (fun k => (t.take k, t.drop k ++ r))

/-- First `some` value of `f` over a list, in order. -/
def firstSome {α β : Type} (f : α → Option β) : List α → Option β
  | [] => none
  | a :: l =>
    match f a with
    | some b => some b
    | none => firstSome f l

/-- Backtracking matcher: match the pattern against a prefix of the string
(trailing characters are ignored, as for an unanchored pattern end), and
return the list of captured groups of the first (greedy, leftmost-priority)
successful alternative. -/
def matchSeq : List RElem → List Char → Option (List (List Char))
  | [], _ => some []
  | e :: es, s =>
    firstSome
      (fun pr => (matchSeq es pr.2).map (fun gs => if e.cap then pr.1 :: gs else gs))
      (splits e s)

/-- Unanchored search: try to match at each start position, left to right,
as Python's `re.search` does. -/
def searchIn (pat : List RElem) : List Char → Option (List (List Char))
  | [] => matchSeq pat []
  | c :: rest =>
    match matchSeq pat (c :: rest) with
    | some gs => some gs
    | none => searchIn pat rest

/-! ### The source's patterns and normalizers -/

/-- `([a-zA-Z]+)` : capturing letter group. -/
def eL : RElem := ⟨isLetterC, Quant.plus, true⟩

/-- `[_-]*` : non-capturing optional separator run. -/
def eSstar : RElem := ⟨isSepC, Quant.star, false⟩

/-- `[_-]+` : non-capturing mandatory separator run. -/
def eSplus : RElem := ⟨isSepC, Quant.plus, false⟩

/-- `([0-9]+)` : capturing digit group. -/
def eD : RElem := ⟨isDigitC, Quant.plus, true⟩

/-- The pattern `^([a-zA-Z]+)[_-]*([0-9]+)[_-]+([0-9]+)` of `normNameLine`.
The `^` anchor is reflected by applying `matchSeq` at position 0 only. -/
def plinePat : List RElem := [eL, eSstar, eD, eSplus, eD]

/-- The pattern `^([a-zA-Z]+)[_-]+([0-9]+)` of `normNameArea`. -/
def pareaPat : List RElem := [eL, eSplus, eD]

/-- The three groups matched by `pline.search(name)` in `normNameLine`,
`none` when the pattern does not match (the `AttributeError` branch). -/
def lineGroups (s : List Char) : Option (List Char × List Char × List Char) :=
  match matchSeq plinePat s with
  | some [a, y, n] => some (a, y, n)
  | _ => none

/-- The two groups matched by `parea.search(name)` in `normNameArea`. -/
def areaGroups (s : List Char) : Option (List Char × List Char) :=
  match matchSeq pareaPat s with
  | some [a, y] => some (a, y)
  | _ => none

/-- `normNameLine` of the source: on a match return
`(name + '-' + _chano(ano) + '-' + num).upper()`, otherwise report the
error and return `None` (modelled as `none`). -/
def normNameLine (s : List Char) : Option (List Char) :=
  match lineGroups s with
  | some (a, y, n) => some ((a ++ '-' :: (_chano y ++ '-' :: n)).map upChar)
  | none => none

/-- `normNameArea` of the source: on a match return
`(name + '-' + ano).upper()` — note that the source does **not** apply
`_chano` here — otherwise report the error and return `None`. -/
def normNameArea (s : List Char) : Option (List Char) :=
  match areaGroups s with
  | some (a, y) => some ((a ++ '-' :: y).map upChar)
  | none => none

/-! ### Helper lemmas about lists and the matcher -/

theorem firstSome_nil {α β : Type} (f : α → Option β) : firstSome f [] = none := rfl

theorem firstSome_cons {α β : Type} (f : α → Option β) (a : α) (l : List α) :
    firstSome f (a :: l) = match f a with | some b => some b | none => firstSome f l := rfl

theorem firstSome_eq_head {α β : Type} (f : α → Option β) (a : α) (l : List α)
    (h : ∀ b ∈ l, f b = none) : firstSome f (a :: l) = f a := by
  induction l with
  | nil =>
    rw [firstSome_cons]
    cases hfa : f a <;> simp [hfa, firstSome_nil]
  | cons x xs ih =>
    rw [firstSome_cons]
    cases hfa : f a with
    | some b => rfl
    | none =>
      rw [firstSome_cons, h x (by simp)]
      have := ih (fun b hb => h b (by simp [hb]))
      rw [firstSome_cons, hfa] at this
      exact this

theorem firstSome_map {α β γ : Type} (f : β → Option γ) (g : α → β) (l : List α) :
    firstSome f (l.map g) = firstSome (fun a => f (g a)) l := by
  induction l with
  | nil => rfl
  | cons a l ih => rw [List.map_cons, firstSome_cons, firstSome_cons, ih]

theorem mem_countdown_le {k n : Nat} (h : k ∈ countdown n) : k ≤ n := by
  induction n with
  | zero => simp [countdown] at h; omega
  | succ m ih =>
    simp only [countdown, List.mem_cons] at h
    rcases h with h | h
    · omega
    · have := ih h; omega

theorem mem_countdownPos_le {k n : Nat} (h : k ∈ countdownPos n) : k ≤ n := by
  induction n with
  | zero => simp [countdownPos] at h
  | succ m ih =>
    simp only [countdownPos, List.mem_cons] at h
    rcases h with h | h
    · omega
    · have := ih h; omega

theorem takeWhile_all {p : Char → Bool} :
    ∀ (s : List Char), ∀ c ∈ s.takeWhile p, p c = true := by
  intro s
  induction s with
  | nil => intro c hc; simp [List.takeWhile] at hc
  | cons a l ih =>
    intro c hc
    by_cases hpa : p a = true
    · rw [List.takeWhile_cons, if_pos hpa] at hc
      rcases List.mem_cons.mp hc with h | h
      · rw [h]; exact hpa
      · exact ih c h
    · rw [List.takeWhile_cons, if_neg hpa] at hc
      simp at hc

theorem head_dropWhile {p : Char → Bool} :
    ∀ (s : List Char) (c : Char), (s.dropWhile p).head? = some c → p c = false := by
  intro s
  induction s with
  | nil => intro c hc; simp [List.dropWhile] at hc
  | cons a l ih =>
    intro c hc
    by_cases hpa : p a = true
    · rw [List.dropWhile_cons, if_pos hpa] at hc
      exact ih c hc
    · rw [List.dropWhile_cons, if_neg hpa] at hc
      simp only [List.head?_cons, Option.some.injEq] at hc
      subst hc
      simpa using hpa

theorem takeWhile_app {p : Char → Bool} (u v : List Char)
    (hu : ∀ c ∈ u, p c = true) (hv : ∀ c, v.head? = some c → p c = false) :
    (u ++ v).takeWhile p = u := by
  induction u with
  | nil =>
    cases v with
    | nil => rfl
    | cons b w =>
      simp [List.takeWhile_cons, hv b rfl]
  | cons a u ih =>
    have hpa : p a = true := hu a (by simp)
    simp only [List.cons_append, List.takeWhile_cons, hpa, if_pos]
    rw [ih (fun c hc => hu c (by simp [hc]))]

theorem dropWhile_app {p : Char → Bool} (u v : List Char)
    (hu : ∀ c ∈ u, p c = true) (hv : ∀ c, v.head? = some c → p c = false) :
    (u ++ v).dropWhile p = v := by
  induction u with
  | nil =>
    cases v with
    | nil => rfl
    | cons b w =>
      simp [List.dropWhile_cons, hv b rfl]
  | cons a u ih =>
    have hpa : p a = true := hu a (by simp)
    simp only [List.cons_append, List.dropWhile_cons, hpa, if_pos]
    exact ih (fun c hc => hu c (by simp [hc]))

/-- A greedy `+`-atom whose class rejects every character that could start
the rest of the pattern consumes exactly its maximal run: shorter
alternatives put a class character in front of the remainder, where the
rest of the pattern immediately fails. -/
theorem matchSeq_step_plus (p : Char → Bool) (cap : Bool) (es : List RElem)
    (s : List Char)
    (hrej : ∀ c x, p c = true → matchSeq es (c :: x) = none) :
    matchSeq (⟨p, Quant.plus, cap⟩ :: es) s =
      if (s.takeWhile p).isEmpty then none
      else (matchSeq es (s.dropWhile p)).map
        (fun gs => if cap then s.takeWhile p :: gs else gs) := by
  have hdropk : ∀ k, k < (s.takeWhile p).length →
      (matchSeq es ((s.takeWhile p).drop k ++ s.dropWhile p)).map
        (fun gs => if cap then (s.takeWhile p).take k :: gs else gs) = none := by
    intro k hk
    have hne : (s.takeWhile p).drop k ≠ [] := by
      intro h
      have := List.drop_eq_nil_iff.mp h
      omega
    rcases List.exists_cons_of_ne_nil hne with ⟨c, tl, hct⟩
    have hc : p c = true := by
      apply takeWhile_all s
      have : c ∈ (s.takeWhile p).drop k := by rw [hct]; simp
      exact List.drop_subset _ _ this
    rw [hct, List.cons_append, hrej c _ hc, Option.map_none']
  show firstSome _ (splits ⟨p, Quant.plus, cap⟩ s) = _
  rw [splits]
  simp only
  rw [firstSome_map]
  cases hlen : (s.takeWhile p).length with
  | zero =>
    have : (s.takeWhile p).isEmpty = true := by
      rw [List.isEmpty_iff, ← List.length_eq_zero, hlen]
    rw [this, if_pos rfl]
    rw [show countdownPos 0 = [] from rfl, firstSome_nil]
  | succ m =>
    have hne : (s.takeWhile p).isEmpty = false := by
      cases htw : s.takeWhile p with
      | nil => rw [htw] at hlen; simp at hlen
      | cons c t => rfl
    rw [hne]
    simp only [Bool.false_eq_true, if_false]
    rw [show countdownPos (m + 1) = (m + 1) :: countdownPos m from rfl]
    rw [firstSome_eq_head]
    · rw [← hlen, List.take_length, List.drop_length, List.nil_append]
    · intro k hk
      have hkle : k ≤ m := mem_countdownPos_le hk
      exact hdropk k (by omega)

/-- Analogue of `matchSeq_step_plus` for a greedy `*`-atom. -/
theorem matchSeq_step_star (p : Char → Bool) (cap : Bool) (es : List RElem)
    (s : List Char)
    (hrej : ∀ c x, p c = true → matchSeq es (c :: x) = none) :
    matchSeq (⟨p, Quant.star, cap⟩ :: es) s =
      (matchSeq es (s.dropWhile p)).map
        (fun gs => if cap then s.takeWhile p :: gs else gs) := by
  have hdropk : ∀ k, k < (s.takeWhile p).length →
      (matchSeq es ((s.takeWhile p).drop k ++ s.dropWhile p)).map
        (fun gs => if cap then (s.takeWhile p).take k :: gs else gs) = none := by
    intro k hk
    have hne : (s.takeWhile p).drop k ≠ [] := by
      intro h
      have := List.drop_eq_nil_iff.mp h
      omega
    rcases List.exists_cons_of_ne_nil hne with ⟨c, tl, hct⟩
    have hc : p c = true := by
      apply takeWhile_all s
      have : c ∈ (s.takeWhile p).drop k := by rw [hct]; simp
      exact List.drop_subset _ _ this
    rw [hct, List.cons_append, hrej c _ hc, Option.map_none']
  show firstSome _ (splits ⟨p, Quant.star, cap⟩ s) = _
  rw [splits]
  simp only
  rw [firstSome_map]
  cases hlen : (s.takeWhile p).length with
  | zero =>
    rw [show countdown 0 = [0] from rfl]
    have ht : s.takeWhile p = [] := List.length_eq_zero.mp hlen
    rw [firstSome_eq_head _ _ _ (by intro b hb; simp at hb)]
    rw [List.take_zero, List.drop_zero, ht, List.nil_append]
  | succ m =>
    rw [show countdown (m + 1) = (m + 1) :: countdown m from rfl]
    rw [firstSome_eq_head]
    · rw [← hlen, List.take_length, List.drop_length, List.nil_append]
    · intro k hk
      have hkle : k ≤ m := mem_countdown_le hk
      exact hdropk k (by omega)

/-- A final greedy `+`-atom consumes its maximal run (the pattern end
accepts any remainder, so the greedy first alternative wins). -/
theorem matchSeq_last_plus (p : Char → Bool) (cap : Bool) (s : List Char) :
    matchSeq [⟨p, Quant.plus, cap⟩] s =
      if (s.takeWhile p).isEmpty then none
      else some (if cap then [s.takeWhile p] else []) := by
  show firstSome _ (splits ⟨p, Quant.plus, cap⟩ s) = _
  rw [splits]
  simp only
  rw [firstSome_map]
  cases hlen : (s.takeWhile p).length with
  | zero =>
    have : (s.takeWhile p).isEmpty = true := by
      rw [List.isEmpty_iff, ← List.length_eq_zero, hlen]
    rw [this, if_pos rfl]
    rw [show countdownPos 0 = [] from rfl, firstSome_nil]
  | succ m =>
    have hne : (s.takeWhile p).isEmpty = false := by
      cases htw : s.takeWhile p with
      | nil => rw [htw] at hlen; simp at hlen
      | cons c t => rfl
    rw [hne]
    simp only [Bool.false_eq_true, if_false]
    rw [show countdownPos (m + 1) = (m + 1) :: countdownPos m from rfl]
    rw [firstSome_cons]
    simp only [matchSeq, Option.map_some', ← hlen, List.take_length]

/-! ### Disjointness of the character classes -/

theorem letter_not_sep (c : Char) (h : isLetterC c = true) : isSepC c = false := by
  simp only [isLetterC, isSepC, decide_eq_true_eq, decide_eq_false_iff_not] at *
  omega

theorem letter_not_digit (c : Char) (h : isLetterC c = true) : isDigitC c = false := by
  simp only [isLetterC, isDigitC, decide_eq_true_eq, decide_eq_false_iff_not] at *
  omega

theorem sep_not_digit (c : Char) (h : isSepC c = true) : isDigitC c = false := by
  simp only [isSepC, isDigitC, decide_eq_true_eq, decide_eq_false_iff_not] at *
  omega

theorem sep_not_letter (c : Char) (h : isSepC c = true) : isLetterC c = false := by
  simp only [isSepC, isLetterC, decide_eq_true_eq, decide_eq_false_iff_not] at *
  omega

theorem digit_not_sep (c : Char) (h : isDigitC c = true) : isSepC c = false := by
  simp only [isDigitC, isSepC, decide_eq_true_eq, decide_eq_false_iff_not] at *
  omega

theorem digit_not_letter (c : Char) (h : isDigitC c = true) : isLetterC c = false := by
  simp only [isDigitC, isLetterC, decide_eq_true_eq, decide_eq_false_iff_not] at *
  omega

/-! ### Closed forms for the two name patterns

Because adjacent character classes in `plinePat` and `pareaPat` are
disjoint, the greedy backtracking match reduces to maximal munch; the
following lemmas derive the closed form bottom-up over the pattern
suffixes. -/

theorem takeWhile_cons_false {p : Char → Bool} {c : Char} (x : List Char)
    (h : p c = false) : (c :: x).takeWhile p = [] := by
  simp [List.takeWhile_cons, h]

theorem mseq_D (s : List Char) :
    matchSeq [eD] s =
      if (s.takeWhile isDigitC).isEmpty then none else some [s.takeWhile isDigitC] := by
  have := matchSeq_last_plus isDigitC true s
  simpa [eD] using this

theorem mseq_D_reject (c : Char) (x : List Char) (h : isDigitC c = false) :
    matchSeq [eD] (c :: x) = none := by
  rw [mseq_D, takeWhile_cons_false x h]
  rfl

theorem mseq_SD (s : List Char) :
    matchSeq [eSplus, eD] s =
      if (s.takeWhile isSepC).isEmpty then none
      else matchSeq [eD] (s.dropWhile isSepC) := by
  have hrej : ∀ c x, isSepC c = true → matchSeq [eD] (c :: x) = none := by
    intro c x hc
    exact mseq_D_reject c x (sep_not_digit c hc)
  have := matchSeq_step_plus isSepC false [eD] s hrej
  simp only [eSplus] at *
  rw [this]
  by_cases h : (s.takeWhile isSepC).isEmpty
  · simp [h]
  · simp only [h, Bool.false_eq_true, if_false]
    cases matchSeq [eD] (s.dropWhile isSepC) <;> simp

theorem mseq_SD_reject (c : Char) (x : List Char) (h : isSepC c = false) :
    matchSeq [eSplus, eD] (c :: x) = none := by
  rw [mseq_SD, takeWhile_cons_false x h]
  rfl

theorem mseq_DSD (s : List Char) :
    matchSeq [eD, eSplus, eD] s =
      if (s.takeWhile isDigitC).isEmpty then none
      else (matchSeq [eSplus, eD] (s.dropWhile isDigitC)).map
        (fun gs => s.takeWhile isDigitC :: gs) := by
  have hrej : ∀ c x, isDigitC c = true → matchSeq [eSplus, eD] (c :: x) = none := by
    intro c x hc
    exact mseq_SD_reject c x (digit_not_sep c hc)
  have := matchSeq_step_plus isDigitC true [eSplus, eD] s hrej
  simpa [eD] using this

theorem mseq_DSD_reject (c : Char) (x : List Char) (h : isDigitC c = false) :
    matchSeq [eD, eSplus, eD] (c :: x) = none := by
  rw [mseq_DSD, takeWhile_cons_false x h]
  rfl

theorem mseq_SDSD (s : List Char) :
    matchSeq [eSstar, eD, eSplus, eD] s =
      matchSeq [eD, eSplus, eD] (s.dropWhile isSepC) := by
  have hrej : ∀ c x, isSepC c = true → matchSeq [eD, eSplus, eD] (c :: x) = none := by
    intro c x hc
    exact mseq_DSD_reject c x (sep_not_digit c hc)
  have := matchSeq_step_star isSepC false [eD, eSplus, eD] s hrej
  simp only [eSstar] at *
  rw [this]
  cases matchSeq [eD, eSplus, eD] (s.dropWhile isSepC) <;> simp

theorem mseq_SDSD_reject (c : Char) (x : List Char) (h : isSepC c = false)
    (h2 : isDigitC c = false) : matchSeq [eSstar, eD, eSplus, eD] (c :: x) = none := by
  rw [mseq_SDSD]
  rw [show (c :: x).dropWhile isSepC = c :: x by simp [List.dropWhile_cons, h]]
  exact mseq_DSD_reject c x h2

/-- Closed form of the full `normNameLine` pattern: maximal munch through
letters, optional separators, digits, mandatory separators, digits. -/
theorem mseq_pline (s : List Char) :
    matchSeq plinePat s =
      (let a := s.takeWhile isLetterC
       let r1 := s.dropWhile isLetterC
       let r2 := r1.dropWhile isSepC
       let y := r2.takeWhile isDigitC
       let r3 := r2.dropWhile isDigitC
       let s2 := r3.takeWhile isSepC
       let r4 := r3.dropWhile isSepC
       let n := r4.takeWhile isDigitC
       if a.isEmpty || y.isEmpty || s2.isEmpty || n.isEmpty then none
       else some [a, y, n]) := by
  have hrej : ∀ c x, isLetterC c = true →
      matchSeq [eSstar, eD, eSplus, eD] (c :: x) = none := by
    intro c x hc
    exact mseq_SDSD_reject c x (letter_not_sep c hc) (letter_not_digit c hc)
  have hstep := matchSeq_step_plus isLetterC true [eSstar, eD, eSplus, eD] s hrej
  rw [show plinePat = ⟨isLetterC, Quant.plus, true⟩ :: [eSstar, eD, eSplus, eD] from rfl]
  rw [hstep]
  simp only
  by_cases ha : (s.takeWhile isLetterC).isEmpty
  · simp [ha]
  · simp only [ha, Bool.false_eq_true, if_false, Bool.false_or]
    rw [mseq_SDSD, mseq_DSD]
    by_cases hy : (((s.dropWhile isLetterC).dropWhile isSepC).takeWhile isDigitC).isEmpty
    · simp [hy]
    · simp only [hy, Bool.false_eq_true, if_false, Bool.false_or]
      rw [mseq_SD]
      by_cases hs2 : ((((s.dropWhile isLetterC).dropWhile isSepC).dropWhile
          isDigitC).takeWhile isSepC).isEmpty
      · simp [hs2]
      · simp only [hs2, Bool.false_eq_true, if_false, Bool.false_or]
        rw [mseq_D]
        by_cases hn : (((((s.dropWhile isLetterC).dropWhile isSepC).dropWhile
            isDigitC).dropWhile isSepC).takeWhile isDigitC).isEmpty
        · simp [hn]
        · simp [hn]

/-- Closed form of the full `normNameArea` pattern. -/
theorem mseq_parea (s : List Char) :
    matchSeq pareaPat s =
      (let a := s.takeWhile isLetterC
       let r1 := s.dropWhile isLetterC
       let s1 := r1.takeWhile isSepC
       let r2 := r1.dropWhile isSepC
       let y := r2.takeWhile isDigitC
       if a.isEmpty || s1.isEmpty || y.isEmpty then none
       else some [a, y]) := by
  have hrej : ∀ c x, isLetterC c = true → matchSeq [eSplus, eD] (c :: x) = none := by
    intro c x hc
    exact mseq_SD_reject c x (letter_not_sep c hc)
  have hstep := matchSeq_step_plus isLetterC true [eSplus, eD] s hrej
  rw [show pareaPat = ⟨isLetterC, Quant.plus, true⟩ :: [eSplus, eD] from rfl]
  rw [hstep]
  simp only
  by_cases ha : (s.takeWhile isLetterC).isEmpty
  · simp [ha]
  · simp only [ha, Bool.false_eq_true, if_false, Bool.false_or]
    rw [mseq_SD]
    by_cases hs1 : ((s.dropWhile isLetterC).takeWhile isSepC).isEmpty
    · simp [hs1]
    · simp only [hs1, Bool.false_eq_true, if_false, Bool.false_or]
      rw [mseq_D]
      by_cases hy : (((s.dropWhile isLetterC).dropWhile isSepC).takeWhile
          isDigitC).isEmpty
      · simp [hy]
      · simp [hy]

/-! ### Decomposition and reassembly for the name patterns -/

/-- Every character of the list satisfies the class. -/
def AllB (p : Char → Bool) (l : List Char) : Prop := ∀ c ∈ l, p c = true

/-- The head of the list, if any, fails the class. -/
def HeadNot (p : Char → Bool) (l : List Char) : Prop :=
  ∀ c, l.head? = some c → p c = false

theorem ne_nil_of_isEmpty_false {l : List Char} (h : l.isEmpty = false) : l ≠ [] := by
  intro heq
  rw [heq] at h
  simp at h

theorem isEmpty_false_of_ne_nil {l : List Char} (h : l ≠ []) : l.isEmpty = false := by
  cases l with
  | nil => exact absurd rfl h
  | cons c t => rfl

theorem head_fail_vw {pb pfail : Char → Bool} {v w : List Char}
    (hv : AllB pb v) (hvne : v ≠ []) (hb : ∀ c, pb c = true → pfail c = false) :
    ∀ c, (v ++ w).head? = some c → pfail c = false := by
  intro c hc
  cases v with
  | nil => exact absurd rfl hvne
  | cons v0 vt =>
    simp only [List.cons_append, List.head?_cons, Option.some.injEq] at hc
    rw [← hc]
    exact hb v0 (hv v0 (by simp))

theorem head_fail_uvw {pa pb pfail : Char → Bool} {u v w : List Char}
    (hu : AllB pa u) (hv : AllB pb v) (hvne : v ≠ [])
    (ha : ∀ c, pa c = true → pfail c = false)
    (hb : ∀ c, pb c = true → pfail c = false) :
    ∀ c, (u ++ (v ++ w)).head? = some c → pfail c = false := by
  intro c hc
  cases u with
  | nil =>
    simp only [List.nil_append] at hc
    exact head_fail_vw hv hvne hb c hc
  | cons u0 ut =>
    simp only [List.cons_append, List.head?_cons, Option.some.injEq] at hc
    rw [← hc]
    exact ha u0 (hu u0 (by simp))

theorem headNot_append {p : Char → Bool} {l m : List Char}
    (h : HeadNot p l) (hne : l ≠ []) : HeadNot p (l ++ m) := by
  intro c hc
  cases l with
  | nil => exact absurd rfl hne
  | cons a t =>
    simp only [List.cons_append, List.head?_cons, Option.some.injEq] at hc
    rw [← hc]
    exact h a rfl

/-- Soundness of the `normNameLine` match: a successful match decomposes the
input into the three captured groups, the separator runs between them, and
an unconsumed remainder that cannot extend the final digit group. -/
theorem lineGroups_sound {s a y n : List Char}
    (h : lineGroups s = some (a, y, n)) :
    ∃ s1 s2 rest, s = a ++ (s1 ++ (y ++ (s2 ++ (n ++ rest)))) ∧
      a ≠ [] ∧ AllB isLetterC a ∧ AllB isSepC s1 ∧
      y ≠ [] ∧ AllB isDigitC y ∧ s2 ≠ [] ∧ AllB isSepC s2 ∧
      n ≠ [] ∧ AllB isDigitC n ∧ HeadNot isDigitC rest := by
  rw [lineGroups, mseq_pline] at h
  simp only at h
  cases ha : (s.takeWhile isLetterC).isEmpty
  case true => rw [ha] at h; simp at h
  case false =>
  rw [ha] at h
  cases hy : (((s.dropWhile isLetterC).dropWhile isSepC).takeWhile isDigitC).isEmpty
  case true => rw [hy] at h; simp at h
  case false =>
  rw [hy] at h
  cases hs2 : ((((s.dropWhile isLetterC).dropWhile isSepC).dropWhile
      isDigitC).takeWhile isSepC).isEmpty
  case true => rw [hs2] at h; simp at h
  case false =>
  rw [hs2] at h
  cases hn : (((((s.dropWhile isLetterC).dropWhile isSepC).dropWhile
      isDigitC).dropWhile isSepC).takeWhile isDigitC).isEmpty
  case true => rw [hn] at h; simp at h
  case false =>
  rw [hn] at h
  obtain ⟨rfl, rfl, rfl⟩ :
      s.takeWhile isLetterC = a ∧
      ((s.dropWhile isLetterC).dropWhile isSepC).takeWhile isDigitC = y ∧
      ((((s.dropWhile isLetterC).dropWhile isSepC).dropWhile
        isDigitC).dropWhile isSepC).takeWhile isDigitC = n := by
    simpa using h
  refine ⟨(s.dropWhile isLetterC).takeWhile isSepC,
          (((s.dropWhile isLetterC).dropWhile isSepC).dropWhile
            isDigitC).takeWhile isSepC,
          ((((s.dropWhile isLetterC).dropWhile isSepC).dropWhile
            isDigitC).dropWhile isSepC).dropWhile isDigitC,
          ?_, ?_, ?_, ?_, ?_, ?_, ?_, ?_, ?_, ?_, ?_⟩
  · conv_lhs => rw [← List.takeWhile_append_dropWhile (p := isLetterC) (l := s)]
    congr 1
    conv_lhs => rw [← List.takeWhile_append_dropWhile (p := isSepC)
      (l := s.dropWhile isLetterC)]
    congr 1
    conv_lhs => rw [← List.takeWhile_append_dropWhile (p := isDigitC)
      (l := (s.dropWhile isLetterC).dropWhile isSepC)]
    congr 1
    conv_lhs => rw [← List.takeWhile_append_dropWhile (p := isSepC)
      (l := ((s.dropWhile isLetterC).dropWhile isSepC).dropWhile isDigitC)]
    congr 1
    conv_lhs => rw [← List.takeWhile_append_dropWhile (p := isDigitC)
      (l := (((s.dropWhile isLetterC).dropWhile isSepC).dropWhile
        isDigitC).dropWhile isSepC)]
  · exact ne_nil_of_isEmpty_false ha
  · exact takeWhile_all s
  · exact takeWhile_all _
  · exact ne_nil_of_isEmpty_false hy
  · exact takeWhile_all _
  · exact ne_nil_of_isEmpty_false hs2
  · exact takeWhile_all _
  · exact ne_nil_of_isEmpty_false hn
  · exact takeWhile_all _
  · exact fun c hc => head_dropWhile _ c hc

/-- Reassembly: a string built from the decomposition blocks matches with
exactly those groups (the class disjointness supplies all the run
boundaries; only the final remainder must not begin with a digit). -/
theorem lineGroups_complete (a s1 y s2 n rest : List Char)
    (ha : a ≠ []) (hal : AllB isLetterC a) (hs1 : AllB isSepC s1)
    (hy : y ≠ []) (hyd : AllB isDigitC y) (hs2 : s2 ≠ []) (hs2s : AllB isSepC s2)
    (hn : n ≠ []) (hnd : AllB isDigitC n) (hrest : HeadNot isDigitC rest) :
    lineGroups (a ++ (s1 ++ (y ++ (s2 ++ (n ++ rest))))) = some (a, y, n) := by
  have t1 : (a ++ (s1 ++ (y ++ (s2 ++ (n ++ rest))))).takeWhile isLetterC = a :=
    takeWhile_app _ _ hal
      (head_fail_uvw hs1 hyd hy sep_not_letter digit_not_letter)
  have d1 : (a ++ (s1 ++ (y ++ (s2 ++ (n ++ rest))))).dropWhile isLetterC =
      s1 ++ (y ++ (s2 ++ (n ++ rest))) :=
    dropWhile_app _ _ hal
      (head_fail_uvw hs1 hyd hy sep_not_letter digit_not_letter)
  have d2 : (s1 ++ (y ++ (s2 ++ (n ++ rest)))).dropWhile isSepC =
      y ++ (s2 ++ (n ++ rest)) :=
    dropWhile_app _ _ hs1 (head_fail_vw hyd hy digit_not_sep)
  have t3 : (y ++ (s2 ++ (n ++ rest))).takeWhile isDigitC = y :=
    takeWhile_app _ _ hyd (head_fail_vw hs2s hs2 sep_not_digit)
  have d3 : (y ++ (s2 ++ (n ++ rest))).dropWhile isDigitC = s2 ++ (n ++ rest) :=
    dropWhile_app _ _ hyd (head_fail_vw hs2s hs2 sep_not_digit)
  have t4 : (s2 ++ (n ++ rest)).takeWhile isSepC = s2 :=
    takeWhile_app _ _ hs2s (head_fail_vw hnd hn digit_not_sep)
  have d4 : (s2 ++ (n ++ rest)).dropWhile isSepC = n ++ rest :=
    dropWhile_app _ _ hs2s (head_fail_vw hnd hn digit_not_sep)
  have t5 : (n ++ rest).takeWhile isDigitC = n :=
    takeWhile_app _ _ hnd hrest
  rw [lineGroups, mseq_pline]
  simp only [t1, d1, d2, t3, d3, t4, d4, t5]
  rw [isEmpty_false_of_ne_nil ha, isEmpty_false_of_ne_nil hy,
      isEmpty_false_of_ne_nil hs2, isEmpty_false_of_ne_nil hn]
  rfl

/-- Soundness of the `normNameArea` match. -/
theorem areaGroups_sound {s a y : List Char}
    (h : areaGroups s = some (a, y)) :
    ∃ s1 rest, s = a ++ (s1 ++ (y ++ rest)) ∧
      a ≠ [] ∧ AllB isLetterC a ∧ s1 ≠ [] ∧ AllB isSepC s1 ∧
      y ≠ [] ∧ AllB isDigitC y ∧ HeadNot isDigitC rest := by
  rw [areaGroups, mseq_parea] at h
  simp only at h
  cases hA : (s.takeWhile isLetterC).isEmpty
  case true => rw [hA] at h; simp at h
  case false =>
  rw [hA] at h
  cases hs1 : ((s.dropWhile isLetterC).takeWhile isSepC).isEmpty
  case true => rw [hs1] at h; simp at h
  case false =>
  rw [hs1] at h
  cases hy : (((s.dropWhile isLetterC).dropWhile isSepC).takeWhile isDigitC).isEmpty
  case true => rw [hy] at h; simp at h
  case false =>
  rw [hy] at h
  obtain ⟨rfl, rfl⟩ :
      s.takeWhile isLetterC = a ∧
      ((s.dropWhile isLetterC).dropWhile isSepC).takeWhile isDigitC = y := by
    simpa using h
  refine ⟨(s.dropWhile isLetterC).takeWhile isSepC,
          ((s.dropWhile isLetterC).dropWhile isSepC).dropWhile isDigitC,
          ?_, ?_, ?_, ?_, ?_, ?_, ?_, ?_⟩
  · conv_lhs => rw [← List.takeWhile_append_dropWhile (p := isLetterC) (l := s)]
    congr 1
    conv_lhs => rw [← List.takeWhile_append_dropWhile (p := isSepC)
      (l := s.dropWhile isLetterC)]
    congr 1
    conv_lhs => rw [← List.takeWhile_append_dropWhile (p := isDigitC)
      (l := (s.dropWhile isLetterC).dropWhile isSepC)]
  · exact ne_nil_of_isEmpty_false hA
  · exact takeWhile_all s
  · exact ne_nil_of_isEmpty_false hs1
  · exact takeWhile_all _
  · exact ne_nil_of_isEmpty_false hy
  · exact takeWhile_all _
  · exact fun c hc => head_dropWhile _ c hc

/-- Reassembly for the `normNameArea` pattern. -/
theorem areaGroups_complete (a s1 y rest : List Char)
    (ha : a ≠ []) (hal : AllB isLetterC a) (hs1 : s1 ≠ []) (hs1s : AllB isSepC s1)
    (hy : y ≠ []) (hyd : AllB isDigitC y) (hrest : HeadNot isDigitC rest) :
    areaGroups (a ++ (s1 ++ (y ++ rest))) = some (a, y) := by
  have t1 : (a ++ (s1 ++ (y ++ rest))).takeWhile isLetterC = a :=
    takeWhile_app _ _ hal (head_fail_vw hs1s hs1 sep_not_letter)
  have d1 : (a ++ (s1 ++ (y ++ rest))).dropWhile isLetterC = s1 ++ (y ++ rest) :=
    dropWhile_app _ _ hal (head_fail_vw hs1s hs1 sep_not_letter)
  have t2 : (s1 ++ (y ++ rest)).takeWhile isSepC = s1 :=
    takeWhile_app _ _ hs1s (head_fail_vw hyd hy digit_not_sep)
  have d2 : (s1 ++ (y ++ rest)).dropWhile isSepC = y ++ rest :=
    dropWhile_app _ _ hs1s (head_fail_vw hyd hy digit_not_sep)
  have t3 : (y ++ rest).takeWhile isDigitC = y :=
    takeWhile_app _ _ hyd hrest
  rw [areaGroups, mseq_parea]
  simp only [t1, d1, t2, d2, t3]
  rw [isEmpty_false_of_ne_nil ha, isEmpty_false_of_ne_nil hs1,
      isEmpty_false_of_ne_nil hy]
  rfl

/-! ### Facts about character upper-casing -/

theorem char_toNat_ofNat {n : Nat} (h : n < 55296) : (Char.ofNat n).toNat = n := by
  unfold Char.ofNat
  rw [dif_pos (Or.inl h)]
  rfl

theorem up_digit (c : Char) (h : isDigitC c = true) : upChar c = c := by
  simp only [isDigitC, decide_eq_true_eq] at h
  rw [upChar, if_neg (by omega)]

theorem up_upper (c : Char) (h : isUpperLetter c = true) : upChar c = c := by
  simp only [isUpperLetter, decide_eq_true_eq] at h
  rw [upChar, if_neg (by omega)]

theorem up_letter (c : Char) (h : isLetterC c = true) :
    isUpperLetter (upChar c) = true := by
  simp only [isLetterC, decide_eq_true_eq] at h
  rw [upChar]
  by_cases hl : 97 ≤ c.toNat ∧ c.toNat ≤ 122
  · rw [if_pos hl]
    simp only [isUpperLetter, decide_eq_true_eq]
    rw [char_toNat_ofNat (by omega)]
    omega
  · rw [if_neg hl]
    simp only [isUpperLetter, decide_eq_true_eq]
    omega

theorem upper_is_letter (c : Char) (h : isUpperLetter c = true) :
    isLetterC c = true := by
  simp only [isUpperLetter, decide_eq_true_eq] at h
  simp only [isLetterC, decide_eq_true_eq]
  omega

theorem up_dash : upChar '-' = '-' := by decide

theorem ne_dash_of_upper {c : Char} (h : isUpperLetter c = true) : c ≠ '-' := by
  intro he
  rw [he] at h
  simp [isUpperLetter] at h

theorem ne_dash_of_digit {c : Char} (h : isDigitC c = true) : c ≠ '-' := by
  intro he
  rw [he] at h
  simp [isDigitC] at h

theorem map_up_digits {l : List Char} (h : AllB isDigitC l) : l.map upChar = l := by
  induction l with
  | nil => rfl
  | cons c t ih =>
    rw [List.map_cons, up_digit c (h c (by simp)), ih (fun x hx => h x (by simp [hx]))]

theorem map_up_uppers {l : List Char} (h : AllB isUpperLetter l) : l.map upChar = l := by
  induction l with
  | nil => rfl
  | cons c t ih =>
    rw [List.map_cons, up_upper c (h c (by simp)), ih (fun x hx => h x (by simp [hx]))]

theorem allB_up_letters {l : List Char} (h : AllB isLetterC l) :
    AllB isUpperLetter (l.map upChar) := by
  intro c hc
  rcases List.mem_map.mp hc with ⟨x, hx, rfl⟩
  exact up_letter x (h x hx)

theorem allB_upper_letters {l : List Char} (h : AllB isUpperLetter l) :
    AllB isLetterC l :=
  fun c hc => upper_is_letter c (h c hc)

theorem allB_chano {y : List Char} (h : AllB isDigitC y) : AllB isDigitC (_chano y) := by
  rw [_chano]
  by_cases hl : y.length = 2
  · rw [if_pos hl]
    intro c hc
    rcases List.mem_cons.mp hc with rfl | hc
    · decide
    rcases List.mem_cons.mp hc with rfl | hc
    · decide
    · exact h c hc
  · rw [if_neg hl]; exact h

theorem chano_ne_nil {y : List Char} (h : y ≠ []) : _chano y ≠ [] := by
  rw [_chano]
  by_cases hl : y.length = 2
  · rw [if_pos hl]; simp
  · rw [if_neg hl]; exact h

theorem chano_chano (y : List Char) : _chano (_chano y) = _chano y := by
  by_cases hl : y.length = 2
  · have h1 : _chano y = '1' :: '9' :: y := by rw [_chano, if_pos hl]
    rw [h1, _chano, if_neg (by simp only [List.length_cons]; omega)]
  · have h1 : _chano y = y := by rw [_chano, if_neg hl]
    rw [h1, h1]

theorem map_ne_nil {l : List Char} {f : Char → Char} (h : l ≠ []) : l.map f ≠ [] := by
  cases l with
  | nil => exact absurd rfl h
  | cons c t => simp

theorem headNot_nil {p : Char → Bool} : HeadNot p [] := by
  intro c hc
  simp at hc

/-! ### Canonical-shape predicates (from the spec's wording) -/

/-- Split a string at every `'-'`, the shape of `NAME-YEAR-NUMBER` parsing. -/
def splitDash : List Char → List (List Char)
  | [] => [[]]
  | c :: l =>
    if c = '-' then [] :: splitDash l
    else
      match splitDash l with
      | g :: gs => (c :: g) :: gs
      | [] => [[c]]

theorem splitDash_nodash {u : List Char} (h : ∀ c ∈ u, c ≠ '-') :
    splitDash u = [u] := by
  induction u with
  | nil => rfl
  | cons c t ih =>
    rw [splitDash, if_neg (h c (by simp)), ih (fun x hx => h x (by simp [hx]))]

theorem splitDash_append {u : List Char} (v : List Char) (h : ∀ c ∈ u, c ≠ '-') :
    splitDash (u ++ '-' :: v) = u :: splitDash v := by
  induction u with
  | nil =>
    rw [List.nil_append, splitDash, if_pos rfl]
  | cons c t ih =>
    rw [List.cons_append, splitDash, if_neg (h c (by simp)),
        ih (fun x hx => h x (by simp [hx]))]

/-- Modelled from the spec: the shape part of the `CanonicalIdentifier`
invariant for Line outputs — upper-case, of the form `NAME-YEAR-NUMBER`
with a non-empty letter NAME and non-empty digit YEAR and NUMBER. -/
def canonShapeLine (r : List Char) : Bool :=
  match splitDash r with
  | [a, y, n] =>
    !a.isEmpty && a.all isUpperLetter && !y.isEmpty && y.all isDigitC &&
    !n.isEmpty && n.all isDigitC
  | _ => false

/-- Modelled from the spec: the shape part of the `CanonicalIdentifier`
invariant for Area outputs — upper-case, of the form `NAME-YEAR`. -/
def canonShapeArea (r : List Char) : Bool :=
  match splitDash r with
  | [a, y] =>
    !a.isEmpty && a.all isUpperLetter && !y.isEmpty && y.all isDigitC
  | _ => false

/-- Modelled from the spec: the full `CanonicalIdentifier` invariant for a
Line output, including the requirement that YEAR is exactly 4 digits. -/
def isCanonicalLineSpec (r : List Char) : Bool :=
  match splitDash r with
  | [a, y, n] =>
    !a.isEmpty && a.all isUpperLetter && !y.isEmpty && y.all isDigitC &&
    decide (y.length = 4) && !n.isEmpty && n.all isDigitC
  | _ => false

theorem all_of_allB {p : Char → Bool} {l : List Char} (h : AllB p l) :
    l.all p = true :=
  List.all_eq_true.mpr h

theorem out_line (a y n : List Char) :
    (a ++ '-' :: (y ++ '-' :: n)).map upChar =
      a.map upChar ++ '-' :: (y.map upChar ++ '-' :: n.map upChar) := by
  rw [List.map_append, List.map_cons, List.map_append, List.map_cons, up_dash]

theorem out_area (a y : List Char) :
    (a ++ '-' :: y).map upChar = a.map upChar ++ '-' :: y.map upChar := by
  rw [List.map_append, List.map_cons, up_dash]

/-! ### Output form of the normalizers -/

theorem allB_append {p : Char → Bool} {u v : List Char}
    (hu : AllB p u) (hv : AllB p v) : AllB p (u ++ v) := by
  intro c hc
  rcases List.mem_append.mp hc with h | h
  · exact hu c h
  · exact hv c h

theorem append_ne_nil_left {u : List Char} (v : List Char) (h : u ≠ []) :
    u ++ v ≠ [] := by
  cases u with
  | nil => exact absurd rfl h
  | cons c t => simp

theorem sep_dash : AllB isSepC ['-'] := by
  intro c hc
  rw [List.mem_singleton.mp hc]
  decide

theorem normNameLine_groups {s a y n : List Char}
    (h : lineGroups s = some (a, y, n)) :
    normNameLine s =
      some (a.map upChar ++ '-' :: ((_chano y).map upChar ++ '-' :: n.map upChar)) := by
  have h1 : normNameLine s = some ((a ++ '-' :: (_chano y ++ '-' :: n)).map upChar) := by
    unfold normNameLine
    rw [h]
  rw [h1, out_line]

theorem normNameLine_none {s : List Char} (h : lineGroups s = none) :
    normNameLine s = none := by
  unfold normNameLine
  rw [h]

theorem normNameArea_groups {s a y : List Char}
    (h : areaGroups s = some (a, y)) :
    normNameArea s = some (a.map upChar ++ '-' :: y.map upChar) := by
  have h1 : normNameArea s = some ((a ++ '-' :: y).map upChar) := by
    unfold normNameArea
    rw [h]
  rw [h1, out_area]

theorem normNameArea_none {s : List Char} (h : areaGroups s = none) :
    normNameArea s = none := by
  unfold normNameArea
  rw [h]

/-- Appending arbitrary text to a matching input keeps the first two groups
and can only extend the final digit group; when the appended text does not
begin with a digit, the groups are exactly unchanged. -/
theorem lineGroups_append {p : List Char} (extra : List Char) {a y n : List Char}
    (h : lineGroups p = some (a, y, n)) :
    ∃ nn, lineGroups (p ++ extra) = some (a, y, nn) ∧
      (HeadNot isDigitC extra → nn = n) := by
  obtain ⟨s1, s2, rest, hs, ha, hal, hs1, hy, hyd, hs2, hs2s, hn, hnd, hrest⟩ :=
    lineGroups_sound h
  subst hs
  cases rest with
  | nil =>
    have he : (a ++ (s1 ++ (y ++ (s2 ++ (n ++ []))))) ++ extra =
        a ++ (s1 ++ (y ++ (s2 ++ ((n ++ extra.takeWhile isDigitC) ++
          extra.dropWhile isDigitC)))) := by
      simp [List.append_assoc, List.takeWhile_append_dropWhile]
    rw [he]
    refine ⟨n ++ extra.takeWhile isDigitC, ?_, ?_⟩
    · exact lineGroups_complete a s1 y s2 _ _ ha hal hs1 hy hyd hs2 hs2s
        (append_ne_nil_left _ hn) (allB_append hnd (takeWhile_all extra))
        (fun c hc => head_dropWhile _ c hc)
    · intro hne
      have hemp : extra.takeWhile isDigitC = [] := by
        cases extra with
        | nil => rfl
        | cons c t => exact takeWhile_cons_false t (hne c rfl)
      rw [hemp, List.append_nil]
  | cons c0 rtl =>
    have he : (a ++ (s1 ++ (y ++ (s2 ++ (n ++ (c0 :: rtl)))))) ++ extra =
        a ++ (s1 ++ (y ++ (s2 ++ (n ++ ((c0 :: rtl) ++ extra))))) := by
      simp [List.append_assoc]
    rw [he]
    exact ⟨n, lineGroups_complete a s1 y s2 n _ ha hal hs1 hy hyd hs2 hs2s hn hnd
      (headNot_append hrest (by simp)), fun _ => rfl⟩

theorem areaGroups_append {p : List Char} (extra : List Char) {a y : List Char}
    (h : areaGroups p = some (a, y)) :
    ∃ yy, areaGroups (p ++ extra) = some (a, yy) ∧
      (HeadNot isDigitC extra → yy = y) := by
  obtain ⟨s1, rest, hs, ha, hal, hs1, hs1s, hy, hyd, hrest⟩ := areaGroups_sound h
  subst hs
  cases rest with
  | nil =>
    have he : (a ++ (s1 ++ (y ++ []))) ++ extra =
        a ++ (s1 ++ ((y ++ extra.takeWhile isDigitC) ++
          extra.dropWhile isDigitC)) := by
      simp [List.append_assoc, List.takeWhile_append_dropWhile]
    rw [he]
    refine ⟨y ++ extra.takeWhile isDigitC, ?_, ?_⟩
    · exact areaGroups_complete a s1 _ _ ha hal hs1 hs1s
        (append_ne_nil_left _ hy) (allB_append hyd (takeWhile_all extra))
        (fun c hc => head_dropWhile _ c hc)
    · intro hne
      have hemp : extra.takeWhile isDigitC = [] := by
        cases extra with
        | nil => rfl
        | cons c t => exact takeWhile_cons_false t (hne c rfl)
      rw [hemp, List.append_nil]
  | cons c0 rtl =>
    have he : (a ++ (s1 ++ (y ++ (c0 :: rtl)))) ++ extra =
        a ++ (s1 ++ (y ++ ((c0 :: rtl) ++ extra))) := by
      simp [List.append_assoc]
    rw [he]
    exact ⟨y, areaGroups_complete a s1 y _ ha hal hs1 hs1s hy hyd
      (headNot_append hrest (by simp)), fun _ => rfl⟩

/-! ### Claims C1, C2, C5, C6, C10 -/

/-- C1: the claim states that `normNameArea` applies the 2-digit-year
expansion, with `normNameArea("xyz-99") = "XYZ-1999"`.  The code does not:
`normNameArea` never calls `_chano`, so the run on the spec's own example
input returns `"XYZ-99"` — even though `_chano` would have produced
`"1999"` from `"99"` had it been applied, as it is in `normNameLine`. -/
theorem C1_area_not_expanded :
    normNameArea ("xyz-99".toList) = some ("XYZ-99".toList) ∧
    _chano ("99".toList) = "1999".toList ∧
    ("XYZ-99".toList : List Char) ≠ "XYZ-1999".toList := by
  refine ⟨by decide, by decide, by decide⟩

/-- C2 counterexample: `normNameLine` succeeds on `"abc-123-456"`, whose
matched year group has 3 digits, and produces `"ABC-123-456"`, which is not
a `CanonicalIdentifier` in the spec's sense (its YEAR component is not 4
digits).  This refutes the claim that every successful output has a
4-digit YEAR. -/
theorem C2_counterexample :
    normNameLine ("abc-123-456".toList) = some ("ABC-123-456".toList) ∧
    isCanonicalLineSpec ("ABC-123-456".toList) = false := by
  refine ⟨by decide, by decide⟩

/-- C2 (amended): every successful output of `normNameLine` (resp.
`normNameArea`) is entirely upper-case and of the shape `NAME-YEAR-NUMBER`
(resp. `NAME-YEAR`) with a non-empty letter NAME and non-empty digit YEAR
and NUMBER components; the YEAR component is, however, not always 4 digits
(`normNameLine` expands only exactly-2-digit year groups and `normNameArea`
performs no expansion at all). -/
theorem C2_canonical_shape (s r : List Char) :
    (normNameLine s = some r → canonShapeLine r = true) ∧
    (normNameArea s = some r → canonShapeArea r = true) := by
  constructor
  · intro h
    cases hg : lineGroups s with
    | none => rw [normNameLine_none hg] at h; exact Option.noConfusion h
    | some g =>
      obtain ⟨a, y, n⟩ := g
      have hout := normNameLine_groups hg
      rw [h] at hout
      have hr := Option.some.inj hout
      subst hr
      obtain ⟨s1, s2, rest, hs, ha, hal, hs1, hy, hyd, hs2, hs2s, hn, hnd, hrest⟩ :=
        lineGroups_sound hg
      have hYd : AllB isDigitC (_chano y) := allB_chano hyd
      have hA : AllB isUpperLetter (a.map upChar) := allB_up_letters hal
      rw [map_up_digits hYd, map_up_digits hnd]
      rw [canonShapeLine]
      rw [splitDash_append _ (fun c hc => ne_dash_of_upper (hA c hc)),
          splitDash_append _ (fun c hc => ne_dash_of_digit (hYd c hc)),
          splitDash_nodash (fun c hc => ne_dash_of_digit (hnd c hc))]
      simp [isEmpty_false_of_ne_nil (map_ne_nil ha), all_of_allB hA,
            isEmpty_false_of_ne_nil (chano_ne_nil hy), all_of_allB hYd,
            isEmpty_false_of_ne_nil hn, all_of_allB hnd]
  · intro h
    cases hg : areaGroups s with
    | none => rw [normNameArea_none hg] at h; exact Option.noConfusion h
    | some g =>
      obtain ⟨a, y⟩ := g
      have hout := normNameArea_groups hg
      rw [h] at hout
      have hr := Option.some.inj hout
      subst hr
      obtain ⟨s1, rest, hs, ha, hal, hs1, hs1s, hy, hyd, hrest⟩ := areaGroups_sound hg
      have hA : AllB isUpperLetter (a.map upChar) := allB_up_letters hal
      rw [map_up_digits hyd]
      rw [canonShapeArea]
      rw [splitDash_append _ (fun c hc => ne_dash_of_upper (hA c hc)),
          splitDash_nodash (fun c hc => ne_dash_of_digit (hyd c hc))]
      simp [isEmpty_false_of_ne_nil (map_ne_nil ha), all_of_allB hA,
            isEmpty_false_of_ne_nil hy, all_of_allB hyd]

/-- C2 witness: the amended theorem applied at a concrete input. -/
theorem C2_witness : canonShapeLine ("ABC-1987-1234".toList) = true :=
  (C2_canonical_shape ("abc_87_1234".toList) ("ABC-1987-1234".toList)).1 (by decide)

/-- C5: the spec's Line example holds, and for every input whose matched
year group has exactly 4 digits the year appears in the output unchanged
(no expansion is applied). -/
theorem C5_year_expansion :
    normNameLine ("abc_87_1234".toList) = some ("ABC-1987-1234".toList) ∧
    ∀ s a y n : List Char, lineGroups s = some (a, y, n) → y.length = 4 →
      normNameLine s = some (a.map upChar ++ '-' :: (y ++ '-' :: n.map upChar)) := by
  constructor
  · decide
  · intro s a y n hg hy4
    have hout := normNameLine_groups hg
    obtain ⟨s1, s2, rest, hs, ha, hal, hs1, hy, hyd, hs2, hs2s, hn, hnd, hrest⟩ :=
      lineGroups_sound hg
    have hch : _chano y = y := by rw [_chano, if_neg (by omega)]
    rw [hout, hch, map_up_digits hyd]

/-- C5 witness: the 4-digit pass-through applied at a concrete input. -/
theorem C5_witness : normNameLine ("q-1987-12".toList) = some ("Q-1987-12".toList) :=
  (C5_year_expansion.2 ("q-1987-12".toList) ("q".toList) ("1987".toList)
    ("12".toList) (by decide) (by decide)).trans (by decide)

/-- C6: both normalizers are idempotent on their own output: reapplying the
normalizer to any successful result succeeds and returns it unchanged. -/
theorem C6_idempotent (s r : List Char) :
    (normNameLine s = some r → normNameLine r = some r) ∧
    (normNameArea s = some r → normNameArea r = some r) := by
  constructor
  · intro h
    cases hg : lineGroups s with
    | none => rw [normNameLine_none hg] at h; exact Option.noConfusion h
    | some g =>
      obtain ⟨a, y, n⟩ := g
      have hout := normNameLine_groups hg
      rw [h] at hout
      have hr := Option.some.inj hout
      subst hr
      obtain ⟨s1, s2, rest, hs, ha, hal, hs1, hy, hyd, hs2, hs2s, hn, hnd, hrest⟩ :=
        lineGroups_sound hg
      have hYd : AllB isDigitC (_chano y) := allB_chano hyd
      have hA : AllB isUpperLetter (a.map upChar) := allB_up_letters hal
      rw [map_up_digits hYd, map_up_digits hnd]
      have hgr : lineGroups (a.map upChar ++ (['-'] ++ (_chano y ++ (['-'] ++ (n ++ []))))) =
          some (a.map upChar, _chano y, n) :=
        lineGroups_complete (a.map upChar) ['-'] (_chano y) ['-'] n []
          (map_ne_nil ha) (allB_upper_letters hA) sep_dash
          (chano_ne_nil hy) hYd (by simp) sep_dash hn hnd headNot_nil
      have hsh : a.map upChar ++ (['-'] ++ (_chano y ++ (['-'] ++ (n ++ [])))) =
          a.map upChar ++ '-' :: (_chano y ++ '-' :: n) := by simp
      rw [hsh] at hgr
      rw [normNameLine_groups hgr, chano_chano, map_up_digits hYd,
          map_up_digits hnd, map_up_uppers hA]
  · intro h
    cases hg : areaGroups s with
    | none => rw [normNameArea_none hg] at h; exact Option.noConfusion h
    | some g =>
      obtain ⟨a, y⟩ := g
      have hout := normNameArea_groups hg
      rw [h] at hout
      have hr := Option.some.inj hout
      subst hr
      obtain ⟨s1, rest, hs, ha, hal, hs1, hs1s, hy, hyd, hrest⟩ := areaGroups_sound hg
      have hA : AllB isUpperLetter (a.map upChar) := allB_up_letters hal
      rw [map_up_digits hyd]
      have hgr : areaGroups (a.map upChar ++ (['-'] ++ (y ++ []))) =
          some (a.map upChar, y) :=
        areaGroups_complete (a.map upChar) ['-'] y []
          (map_ne_nil ha) (allB_upper_letters hA) (by simp) sep_dash hy hyd headNot_nil
      have hsh : a.map upChar ++ (['-'] ++ (y ++ [])) = a.map upChar ++ '-' :: y := by
        simp
      rw [hsh] at hgr
      rw [normNameArea_groups hgr, map_up_digits hyd, map_up_uppers hA]

/-- C6 witness: idempotence applied at a concrete input. -/
theorem C6_witness :
    normNameLine ("ABC-1987-12".toList) = some ("ABC-1987-12".toList) :=
  (C6_idempotent ("abc_87_12".toList) ("ABC-1987-12".toList)).1 (by decide)

/-- C10: the name patterns are only anchored at the start, so (i) the
example `"abc_87_1234xyz"` normalizes by matching the prefix and silently
dropping `"xyz"`; (ii) appending arbitrary text to any successfully
normalized input still succeeds; and (iii) when the appended text does not
begin with a digit (so it cannot extend the final matched group), the
result is exactly the one for the original input — the trailing text is
discarded. -/
theorem C10_prefix_match :
    (normNameLine ("abc_87_1234xyz".toList) = some ("ABC-1987-1234".toList)) ∧
    (∀ p extra : List Char, (normNameLine p).isSome = true →
      (normNameLine (p ++ extra)).isSome = true) ∧
    (∀ p extra : List Char, (normNameLine p).isSome = true →
      HeadNot isDigitC extra → normNameLine (p ++ extra) = normNameLine p) ∧
    (∀ p extra : List Char, (normNameArea p).isSome = true →
      (normNameArea (p ++ extra)).isSome = true) ∧
    (∀ p extra : List Char, (normNameArea p).isSome = true →
      HeadNot isDigitC extra → normNameArea (p ++ extra) = normNameArea p) := by
  refine ⟨by decide, ?_, ?_, ?_, ?_⟩
  · intro p extra hp
    cases hg : lineGroups p with
    | none => rw [normNameLine_none hg] at hp; simp at hp
    | some g =>
      obtain ⟨a, y, n⟩ := g
      obtain ⟨nn, hgr, _⟩ := lineGroups_append extra hg
      rw [normNameLine_groups hgr]
      rfl
  · intro p extra hp hextra
    cases hg : lineGroups p with
    | none => rw [normNameLine_none hg] at hp; simp at hp
    | some g =>
      obtain ⟨a, y, n⟩ := g
      obtain ⟨nn, hgr, hnn⟩ := lineGroups_append extra hg
      rw [hnn hextra] at hgr
      rw [normNameLine_groups hgr, normNameLine_groups hg]
  · intro p extra hp
    cases hg : areaGroups p with
    | none => rw [normNameArea_none hg] at hp; simp at hp
    | some g =>
      obtain ⟨a, y⟩ := g
      obtain ⟨yy, hgr, _⟩ := areaGroups_append extra hg
      rw [normNameArea_groups hgr]
      rfl
  · intro p extra hp hextra
    cases hg : areaGroups p with
    | none => rw [normNameArea_none hg] at hp; simp at hp
    | some g =>
      obtain ⟨a, y⟩ := g
      obtain ⟨yy, hgr, hyy⟩ := areaGroups_append extra hg
      rw [hyy hextra] at hgr
      rw [normNameArea_groups hgr, normNameArea_groups hg]

/-- C10 witness: trailing non-digit text is discarded, at a concrete
input. -/
theorem C10_witness :
    normNameArea ("uv-95".toList ++ "zz".toList) = normNameArea ("uv-95".toList) :=
  C10_prefix_match.2.2.2.2 ("uv-95".toList) ("zz".toList) (by decide)
    (by intro c hc; simp at hc; rw [← hc]; decide)

/-! ### Header locators -/

/-- Loop of `_skiprows_header_after`: `retNext` models the `return_next`
flag; `r[:len(mark)] == mark` is `mark.isPrefixOf r`.  Falling off the end
of the file is the Python function's implicit `return None`, modelled as
`none`. -/
def afterGo (mark : List Char) : List (List Char) → Nat → Bool → Option (Nat × List Char)
  | [], _, _ => none
  | r :: rs, k, retNext =>
    if retNext then some (k, r)
    else afterGo mark rs (k + 1) (mark.isPrefixOf r)

/-- `_skiprows_header_after` of the source: return the index of the line
after the first line starting with `mark`, together with that line. -/
def _skiprows_header_after (mark : List Char) (lines : List (List Char)) :
    Option (Nat × List Char) :=
  afterGo mark lines 0 false

/-- Loop of `_skiprows_header_before`: `rold` is the previously seen line
(`none` before the first iteration; using it then is Python's
`UnboundLocalError`, which like the implicit `return None` produces no
normal result and is modelled as `none`). -/
def beforeGo (mark : List Char) :
    List (List Char) → Nat → Option (List Char) → Option (Nat × List Char)
  | [], _, _ => none
  | r :: rs, k, rold =>
    if mark.isPrefixOf r then rold.map (fun hd => (k, hd))
    else beforeGo mark rs (k + 1) (some r)

/-- `_skiprows_header_before` of the source: return the index of the first
line starting with `mark` together with the line before it. -/
def _skiprows_header_before (mark : List Char) (lines : List (List Char)) :
    Option (Nat × List Char) :=
  beforeGo mark lines 0 none

/-- C4: when no line starts with the marker token, both header locators
exhaust the input and produce no header — `none`, the "header not found"
failure — rather than any default value. -/
theorem C4_header_not_found (mark : List Char) (lines : List (List Char))
    (h : ∀ r ∈ lines, mark.isPrefixOf r = false) :
    _skiprows_header_after mark lines = none ∧
    _skiprows_header_before mark lines = none := by
  constructor
  · have key : ∀ ls k, (∀ r ∈ ls, mark.isPrefixOf r = false) →
        afterGo mark ls k false = none := by
      intro ls
      induction ls with
      | nil => intro k _; rfl
      | cons r rs ih =>
        intro k hall
        show (if false = true then some (k, r)
              else afterGo mark rs (k + 1) (mark.isPrefixOf r)) = none
        rw [if_neg (by simp), hall r (by simp)]
        exact ih (k + 1) (fun x hx => hall x (by simp [hx]))
    exact key lines 0 h
  · have key : ∀ ls k rold, (∀ r ∈ ls, mark.isPrefixOf r = false) →
        beforeGo mark ls k rold = none := by
      intro ls
      induction ls with
      | nil => intro k rold _; rfl
      | cons r rs ih =>
        intro k rold hall
        show (if mark.isPrefixOf r = true then rold.map (fun hd => (k, hd))
              else beforeGo mark rs (k + 1) (some r)) = none
        rw [hall r (by simp), if_neg (by simp)]
        exact ih (k + 1) (some r) (fun x hx => hall x (by simp [hx]))
    exact key lines 0 none h

/-- C4 witness: the locators applied to a concrete marker-free stream. -/
theorem C4_witness :
    _skiprows_header_after ("<<".toList) ["# hello".toList, "data 1".toList] = none ∧
    _skiprows_header_before ("<<".toList) ["# hello".toList, "data 1".toList] = none :=
  C4_header_not_found ("<<".toList) ["# hello".toList, "data 1".toList] (by decide)

/-! ### Fixed-width column derivation -/

/-- Start offsets of the maximal whitespace runs of a line, as produced by
`[m.start() for m in re.finditer(r'\s+', header)]`: a run starts at index
`i` when the character there is whitespace and the previous one (tracked by
`prevWs`) is not. -/
def wsRunStartsAux : List Char → Nat → Bool → List Nat
  | [], _, _ => []
  | c :: l, i, prevWs =>
    if isWsC c && !prevWs then i :: wsRunStartsAux l (i + 1) true
    else wsRunStartsAux l (i + 1) (isWsC c)

/-- All whitespace-run start offsets of a header line. -/
def wsRunStarts (l : List Char) : List Nat := wsRunStartsAux l 0 false

/-- The width computation of `_widths_skiprows` on a given header line:
`w = [t-s for s, t in zip(w, w[1:])]` then `w[0] = w[0]+1`.  Python's
`w[0]` raises `IndexError` when fewer than two whitespace runs exist; that
crash is modelled as `none`. -/
def _widths (header : List Char) : Option (List Nat) :=
  match List.zipWith (fun s t => t - s) (wsRunStarts header) (wsRunStarts header).tail with
  | [] => none
  | d :: ds => some ((d + 1) :: ds)

/-- `_widths_skiprows` of the source: locate the header as the line after
the `'<<'` marker line, then derive the widths from it. -/
def _widths_skiprows (lines : List (List Char)) : Option (List Nat × Nat) :=
  match _skiprows_header_after ("<<".toList) lines with
  | none => none
  | some (skiprows, header) =>
    match _widths header with
    | none => none
    | some w => some (w, skiprows)

/-- Modelled from the spec: a "well-formed fixed-width header line" — it
begins with whitespace padding, and it ends with exactly one trailing
whitespace character (the newline kept by Python's line iteration)
immediately preceded by a non-whitespace character.  Its "effective
length" is then its full length, newline included: precisely the span the
fixed-width slicer consumes. -/
def wellFormedHeader (h : List Char) : Bool :=
  (match h with
   | [] => false
   | c :: _ => isWsC c) &&
  (match h.reverse with
   | a :: b :: _ => isWsC a && !(isWsC b)
   | _ => false)

/-- Weak sortedness of a list of naturals. -/
def sortedLE : List Nat → Prop
  | [] => True
  | [_] => True
  | a :: b :: l => a ≤ b ∧ sortedLE (b :: l)

/-- Last element of a list of naturals, 0 for the empty list. -/
def lastD : List Nat → Nat
  | [] => 0
  | [x] => x
  | _ :: x :: l => lastD (x :: l)

theorem sortedLE_cons {x : Nat} {xs : List Nat} (hxs : sortedLE xs)
    (hall : ∀ y ∈ xs, x ≤ y) : sortedLE (x :: xs) := by
  cases xs with
  | nil => trivial
  | cons y ys => exact ⟨hall y (by simp), hxs⟩

theorem aux_ge : ∀ (l : List Char) (i : Nat) (prev : Bool),
    ∀ x ∈ wsRunStartsAux l i prev, i ≤ x := by
  intro l
  induction l with
  | nil => intro i prev x hx; simp [wsRunStartsAux] at hx
  | cons c t ih =>
    intro i prev x hx
    rw [wsRunStartsAux] at hx
    by_cases hc : (isWsC c && !prev) = true
    · rw [if_pos hc] at hx
      rcases List.mem_cons.mp hx with rfl | hx
      · exact Nat.le_refl x
      · have := ih (i + 1) true x hx; omega
    · rw [if_neg hc] at hx
      have := ih (i + 1) (isWsC c) x hx; omega

theorem aux_sorted : ∀ (l : List Char) (i : Nat) (prev : Bool),
    sortedLE (wsRunStartsAux l i prev) := by
  intro l
  induction l with
  | nil => intro i prev; trivial
  | cons c t ih =>
    intro i prev
    rw [wsRunStartsAux]
    by_cases hc : (isWsC c && !prev) = true
    · rw [if_pos hc]
      refine sortedLE_cons (ih (i + 1) true) ?_
      intro y hy
      have := aux_ge t (i + 1) true y hy; omega
    · rw [if_neg hc]
      exact ih (i + 1) (isWsC c)

theorem sortedLE_le_lastD : ∀ {l : List Nat} {x : Nat}, sortedLE (x :: l) →
    x ≤ lastD (x :: l) := by
  intro l
  induction l with
  | nil => intro x _; exact Nat.le_refl x
  | cons y ys ih =>
    intro x hs
    obtain ⟨hxy, hys⟩ := hs
    have := ih hys
    calc x ≤ y := hxy
      _ ≤ lastD (y :: ys) := this

theorem telescope : ∀ {l : List Nat} {x : Nat}, sortedLE (x :: l) →
    (List.zipWith (fun s t => t - s) (x :: l) l).sum + x = lastD (x :: l) := by
  intro l
  induction l with
  | nil => intro x _; simp [lastD]
  | cons y ys ih =>
    intro x hs
    obtain ⟨hxy, hys⟩ := hs
    have hIH := ih hys
    have hyl : y ≤ lastD (y :: ys) := sortedLE_le_lastD hys
    show ((y - x) :: List.zipWith (fun s t => t - s) (y :: ys) ys).sum + x =
      lastD (x :: y :: ys)
    rw [List.sum_cons]
    rw [show lastD (x :: y :: ys) = lastD (y :: ys) from rfl]
    omega

theorem lastD_append (xs : List Nat) (z : Nat) : lastD (xs ++ [z]) = z := by
  induction xs with
  | nil => rfl
  | cons x t ih =>
    have hne : t ++ [z] ≠ [] := by simp
    rcases List.exists_cons_of_ne_nil hne with ⟨w, rest, hw⟩
    rw [List.cons_append, hw]
    rw [show lastD (x :: w :: rest) = lastD (w :: rest) from rfl]
    rw [← hw, ih]

theorem aux_append_last : ∀ (l : List Char) (i : Nat) (prev : Bool) (b a : Char),
    isWsC b = false → isWsC a = true →
    wsRunStartsAux (l ++ [b, a]) i prev =
      wsRunStartsAux (l ++ [b]) i prev ++ [i + l.length + 1] := by
  intro l
  induction l with
  | nil =>
    intro i prev b a hb ha
    show wsRunStartsAux [b, a] i prev = wsRunStartsAux [b] i prev ++ [i + 1]
    simp [wsRunStartsAux, hb, ha]
  | cons c t ih =>
    intro i prev b a hb ha
    show wsRunStartsAux (c :: (t ++ [b, a])) i prev =
      wsRunStartsAux (c :: (t ++ [b])) i prev ++ [i + (c :: t).length + 1]
    rw [wsRunStartsAux, wsRunStartsAux]
    by_cases hc : (isWsC c && !prev) = true
    · rw [if_pos hc, if_pos hc, ih (i + 1) true b a hb ha, List.cons_append]
      rw [show (i + 1) + t.length + 1 = i + (c :: t).length + 1 by
        simp only [List.length_cons]; omega]
    · rw [if_neg hc, if_neg hc, ih (i + 1) (isWsC c) b a hb ha]
      rw [show (i + 1) + t.length + 1 = i + (c :: t).length + 1 by
        simp only [List.length_cons]; omega]

theorem zipWith_tail_getD : ∀ (w : List Nat) (i : Nat), i + 1 < w.length →
    (List.zipWith (fun s t => t - s) w w.tail).getD i 0 =
      w.getD (i + 1) 0 - w.getD i 0 := by
  intro w
  induction w with
  | nil => intro i hi; simp at hi
  | cons x t ih =>
    intro i hi
    cases t with
    | nil => simp at hi
    | cons y rest =>
      show (List.zipWith (fun s t => t - s) (x :: y :: rest) (y :: rest)).getD i 0 = _
      rw [List.zipWith_cons_cons]
      cases i with
      | zero => rfl
      | succ j =>
        have hj : j + 1 < (y :: rest).length := by
          simp at hi ⊢; omega
        have := ih j hj
        simpa using this

/-- C3: (i) `_widths_skiprows` composes the after-convention header locator
with the width derivation `_widths`; (ii) for every well-formed header
line, `_widths` succeeds, each width is the difference between consecutive
whitespace-run start offsets with the first width widened by one
character, and the widths sum to the header line's effective length (its
full character count). -/
theorem C3_widths_sum :
    (∀ lines k hd, _skiprows_header_after ("<<".toList) lines = some (k, hd) →
      _widths_skiprows lines = (_widths hd).map (fun w => (w, k))) ∧
    (∀ h : List Char, wellFormedHeader h = true →
      ∃ ws, _widths h = some ws ∧
        ws.length + 1 = (wsRunStarts h).length ∧
        (∀ i, i < ws.length →
          ws.getD i 0 = (wsRunStarts h).getD (i + 1) 0 - (wsRunStarts h).getD i 0 +
            (if i = 0 then 1 else 0)) ∧
        ws.sum = h.length) := by
  constructor
  · intro lines k hd hloc
    unfold _widths_skiprows
    rw [hloc]
    show (match _widths hd with
          | none => none
          | some w => some (w, k)) = (_widths hd).map (fun w => (w, k))
    cases hw : _widths hd <;> rfl
  · intro h hwf
    unfold wellFormedHeader at hwf
    rw [Bool.and_eq_true] at hwf
    obtain ⟨h1, h2⟩ := hwf
    have hcw : ∃ c t, h = c :: t ∧ isWsC c = true := by
      cases hh : h with
      | nil => rw [hh] at h1; simp at h1
      | cons c t => rw [hh] at h1; exact ⟨c, t, rfl, h1⟩
    have hrev : ∃ a b rb, h.reverse = a :: b :: rb ∧ isWsC a = true ∧
        isWsC b = false := by
      cases hr : h.reverse with
      | nil => rw [hr] at h2; simp at h2
      | cons a tl =>
        cases tl with
        | nil => rw [hr] at h2; simp at h2
        | cons b rb =>
          rw [hr] at h2
          simp only [Bool.and_eq_true, Bool.not_eq_true'] at h2
          exact ⟨a, b, rb, rfl, h2.1, h2.2⟩
    obtain ⟨c, t, hct, hcws⟩ := hcw
    obtain ⟨a, b, rb, hrv, haw, hbw⟩ := hrev
    have hdec : h = rb.reverse ++ [b, a] := by
      have hrr : h = h.reverse.reverse := (List.reverse_reverse h).symm
      rw [hrr, hrv]
      simp [List.reverse_cons, List.append_assoc]
    have hw_split : wsRunStarts h =
        wsRunStartsAux (rb.reverse ++ [b]) 0 false ++ [rb.reverse.length + 1] := by
      rw [wsRunStarts]
      conv_lhs => rw [hdec]
      rw [aux_append_last (rb.reverse) 0 false b a hbw haw]
      rw [show 0 + rb.reverse.length + 1 = rb.reverse.length + 1 by omega]
    have hw_last : lastD (wsRunStarts h) = rb.reverse.length + 1 := by
      rw [hw_split, lastD_append]
    have hlen : h.length = rb.reverse.length + 2 := by
      rw [hdec]; simp
    have hw_head : ∃ w', wsRunStarts h = 0 :: w' := by
      rw [wsRunStarts, hct, wsRunStartsAux, if_pos (by simp [hcws])]
      exact ⟨_, rfl⟩
    obtain ⟨w', hw0⟩ := hw_head
    have hsort : sortedLE (wsRunStarts h) := aux_sorted h 0 false
    have hw'ne : w' ≠ [] := by
      intro he
      rw [he] at hw0
      rw [hw0] at hw_last
      simp [lastD] at hw_last
    have hdne : List.zipWith (fun s t => t - s) (wsRunStarts h)
        (wsRunStarts h).tail ≠ [] := by
      intro he
      have hlz := congrArg List.length he
      rw [List.length_zipWith, List.length_tail, hw0] at hlz
      simp at hlz
      cases w' with
      | nil => exact hw'ne rfl
      | cons e w2 => simp at hlz
    obtain ⟨d0, ds, hd⟩ := List.exists_cons_of_ne_nil hdne
    have hwid : _widths h = some ((d0 + 1) :: ds) := by
      unfold _widths
      rw [hd]
    have hdlen : ds.length + 1 + 1 = (wsRunStarts h).length := by
      have hlz := congrArg List.length hd
      rw [List.length_zipWith, List.length_tail] at hlz
      rw [hw0] at hlz ⊢
      simp at hlz ⊢
      omega
    refine ⟨(d0 + 1) :: ds, hwid, by simpa using hdlen, ?_, ?_⟩
    · intro i hi
      have hi' : i + 1 < (wsRunStarts h).length := by
        simp at hi
        omega
      have hkey := zipWith_tail_getD (wsRunStarts h) i hi'
      rw [hd] at hkey
      cases i with
      | zero =>
        simp at hkey ⊢
        omega
      | succ j =>
        simp only [List.getD_cons_succ] at hkey ⊢
        rw [if_neg (by omega)]
        omega
    · have hsort0 : sortedLE (0 :: w') := by rw [← hw0]; exact hsort
      have ht := telescope hsort0
      have hdw : List.zipWith (fun s t => t - s) (wsRunStarts h)
          (wsRunStarts h).tail = List.zipWith (fun s t => t - s) (0 :: w') w' := by
        rw [hw0]
        rfl
      rw [← hdw, hd] at ht
      rw [hw0] at hw_last
      rw [hw_last] at ht
      simp only [List.sum_cons] at ht ⊢
      omega

/-- C3 witness: both parts applied at a concrete file / header line. -/
theorem C3_witness :
    (_widths_skiprows ["<< x".toList, " AB C\n".toList] =
      (_widths (" AB C\n".toList)).map (fun w => (w, 1))) ∧
    (∃ ws, _widths (" AB C\n".toList) = some ws ∧
      ws.length + 1 = (wsRunStarts (" AB C\n".toList)).length ∧
      (∀ i, i < ws.length →
        ws.getD i 0 = (wsRunStarts (" AB C\n".toList)).getD (i + 1) 0 -
          (wsRunStarts (" AB C\n".toList)).getD i 0 + (if i = 0 then 1 else 0)) ∧
      ws.sum = (" AB C\n".toList).length) :=
  ⟨C3_widths_sum.1 ["<< x".toList, " AB C\n".toList] 1 (" AB C\n".toList) (by decide),
   C3_widths_sum.2 (" AB C\n".toList) (by decide)⟩

/-! ### Free-text metadata extraction (`promax2meta`) -/

/-- One literal character of the escaped target, compared
case-insensitively (`re.I`). -/
def eLitCI (c : Char) : RElem := ⟨fun x => lowChar x == lowChar c, Quant.one, false⟩

/-- `\s*` : non-capturing optional whitespace run. -/
def eWsStar : RElem := ⟨isWsC, Quant.star, false⟩

/-- `[=:]` : exactly one equals sign or colon. -/
def eEqColon : RElem := ⟨fun x => x == '=' || x == ':', Quant.one, false⟩

/-- `\"?` : an optional double quote. -/
def eQuoteOpt : RElem := ⟨fun x => x == '"', Quant.opt, false⟩

/-- `[\w-]` restricted to ASCII: letters, digits, underscore, hyphen. -/
def isWordC (c : Char) : Bool := isLetterC c || isDigitC c || c == '_' || c == '-'

/-- `([\w-]+)` : the captured value. -/
def eWordPlus : RElem := ⟨isWordC, Quant.plus, true⟩

/-- The pattern `re.escape(target) + r'\s*[=:]\s*\"?([\w-]+)\"?'` of
`promax2meta`, matched with `re.I`. -/
def metaPat (target : List Char) : List RElem :=
  target.map eLitCI ++ [eWsStar, eEqColon, eWsStar, eQuoteOpt, eWordPlus, eQuoteOpt]

/-- One `re.search(ptarget, line, re.I)` call of `promax2meta`: the value
captured by the first (leftmost) match of the pattern in the line. -/
def searchLine (target line : List Char) : Option (List Char) :=
  match searchIn (metaPat target) line with
  | some (v :: _) => some v
  | _ => none

/-- `promax2meta` of the source: scan the file's lines in order and return
the first matching line's captured value; falling off the loop is the
implicit `return None`, modelled as `none`. -/
def promax2meta (target : List Char) : List (List Char) → Option (List Char)
  | [] => none
  | line :: rest =>
    match searchLine target line with
    | some v => some v
    | none => promax2meta target rest

/-- C9: `promax2meta` returns the value of the first matching line — for a
file whose earlier lines do not match, the first matching line's value is
returned no matter what follows (so two differently-valued matching lines
yield the first, never the last or an aggregate), and a file with no
matching line yields no value. -/
theorem C9_first_match (target : List Char) :
    (∀ pre l rest v, (∀ m ∈ pre, searchLine target m = none) →
      searchLine target l = some v →
      promax2meta target (pre ++ l :: rest) = some v) ∧
    (∀ lines, (∀ m ∈ lines, searchLine target m = none) →
      promax2meta target lines = none) := by
  constructor
  · intro pre l rest v hpre hl
    induction pre with
    | nil =>
      show (match searchLine target l with
            | some v => some v
            | none => promax2meta target rest) = some v
      rw [hl]
    | cons m ms ih =>
      show (match searchLine target m with
            | some v => some v
            | none => promax2meta target (ms ++ l :: rest)) = some v
      rw [hpre m (by simp)]
      exact ih (fun x hx => hpre x (by simp [hx]))
  · intro lines hall
    induction lines with
    | nil => rfl
    | cons m ms ih =>
      show (match searchLine target m with
            | some v => some v
            | none => promax2meta target ms) = none
      rw [hall m (by simp)]
      exact ih (fun x hx => hall x (by simp [hx]))

/-- C9 witness: a concrete file with two differently-valued `Line =` lines
yields the first value. -/
theorem C9_witness :
    promax2meta ("Line".toList)
      (["# promax".toList] ++ "Line = \"ab-12\"".toList :: ["Line = \"cd-34\"".toList]) =
      some ("ab-12".toList) :=
  (C9_first_match ("Line".toList)).1 ["# promax".toList] ("Line = \"ab-12\"".toList)
    ["Line = \"cd-34\"".toList] ("ab-12".toList) (by decide) (by decide)

/-! ### Schema inference (`cols`) -/

/-- The pandas dtypes appearing in this pipeline (`float64`, `int64`,
object). -/
inductive Dtype where
  | float64 : Dtype
  | int64 : Dtype
  | obj : Dtype
deriving DecidableEq

/-- `_chtype` of the source: map a dtype to the Access column type. -/
def _chtype : Dtype → List Char
  | Dtype.float64 => "double".toList
  | Dtype.int64 => "int".toList
  | Dtype.obj => "text".toList

/-- Python's `x[-1] == '*'` test on a column name. -/
def lastStar (x : List Char) : Bool := x.getLast? == some '*'

/-- `_chname` of the source: drop the trailing `'*'` when present. -/
def _chname (x : List Char) : List Char := if lastStar x then x.dropLast else x

/-- The inputs `cols` reads from a DataFrame: its index name and dtype, and
its column names and dtypes. -/
structure DataFrame where
  indexName : List Char
  indexDtype : Dtype
  colNames : List (List Char)
  colDtypes : List Dtype

/-- The `'PRIMARY KEY'` marker string. -/
def pkStr : List Char := "PRIMARY KEY".toList

/-- Truncating three-way zip, as Python's `zip`. -/
def zip3 {α β γ : Type} : List α → List β → List γ → List (α × β × γ)
  | a :: as, b :: bs, c :: cs => (a, b, c) :: zip3 as bs cs
  | _, _, _ => []

/-- `cols` of the source: emitted names are `_chname`-stripped, types are
`_chtype`-mapped, a column is marked `PRIMARY KEY` exactly when its
original name ends in `'*'`, and the index column is unconditionally
prepended with `PRIMARY KEY`. -/
def cols (df : DataFrame) : List (List Char × List Char × List Char) :=
  let c := df.colNames
  let t := df.colDtypes.map _chtype
  let p := c.map (fun x => if lastStar x then pkStr else [])
  let c2 := c.map _chname
  zip3 (_chname df.indexName :: c2) (_chtype df.indexDtype :: t) (pkStr :: p)

theorem zip3_length {α β γ : Type} : ∀ (a : List α) (b : List β) (c : List γ),
    (zip3 a b c).length = min a.length (min b.length c.length) := by
  intro a
  induction a with
  | nil => intro b c; simp [zip3]
  | cons x as ih =>
    intro b c
    cases b with
    | nil => simp [zip3]
    | cons y bs =>
      cases c with
      | nil => simp [zip3]
      | cons z cs =>
        show (zip3 (x :: as) (y :: bs) (z :: cs)).length = _
        rw [zip3]
        simp only [List.length_cons, ih]
        omega

theorem zip3_getElem {α β γ : Type} :
    ∀ (a : List α) (b : List β) (cl : List γ) (i : Nat) (x : α) (y : β) (z : γ),
    a[i]? = some x → b[i]? = some y → cl[i]? = some z →
    (zip3 a b cl)[i]? = some (x, y, z) := by
  intro a
  induction a with
  | nil => intro b cl i x y z hx; simp at hx
  | cons a0 as ih =>
    intro b cl i x y z hx hy hz
    cases b with
    | nil => simp at hy
    | cons b0 bs =>
      cases cl with
      | nil => simp at hz
      | cons c0 cs =>
        rw [show zip3 (a0 :: as) (b0 :: bs) (c0 :: cs) =
          (a0, b0, c0) :: zip3 as bs cs from rfl]
        cases i with
        | zero =>
          simp only [List.getElem?_cons_zero, Option.some.injEq] at hx hy hz
          simp [hx, hy, hz]
        | succ j =>
          simp only [List.getElem?_cons_succ] at hx hy hz ⊢
          exact ih bs cs j x y z hx hy hz

/-- C8: the head of `cols df` is always the index column, marker-stripped
and marked `PRIMARY KEY` regardless of its name; every other emitted entry
is its original column with the marker stripped from the name, the type
mapped, and `PRIMARY KEY` exactly when the original name carried the
trailing `'*'` marker. -/
theorem C8_schema (df : DataFrame) :
    ((cols df).head? = some (_chname df.indexName, _chtype df.indexDtype, pkStr)) ∧
    (∀ i, i < df.colNames.length → i < df.colDtypes.length →
      (cols df)[i + 1]? = some (_chname (df.colNames.getD i []),
        _chtype (df.colDtypes.getD i Dtype.int64),
        if lastStar (df.colNames.getD i []) then pkStr else [])) ∧
    (∀ i nm ty pr, (cols df)[i + 1]? = some (nm, ty, pr) →
      (pr = pkStr ↔ lastStar (df.colNames.getD i []) = true)) := by
  have hzip : ∀ i, i < df.colNames.length → i < df.colDtypes.length →
      (cols df)[i + 1]? = some (_chname (df.colNames.getD i []),
        _chtype (df.colDtypes.getD i Dtype.int64),
        if lastStar (df.colNames.getD i []) then pkStr else []) := by
    intro i hi1 hi2
    show (zip3 (_chname df.indexName :: df.colNames.map _chname)
      (_chtype df.indexDtype :: df.colDtypes.map _chtype)
      (pkStr :: df.colNames.map (fun x => if lastStar x then pkStr else [])))[i + 1]? = _
    apply zip3_getElem
    · rw [List.getElem?_cons_succ, List.getElem?_map,
          List.getElem?_eq_getElem hi1]
      rw [show df.colNames[i] = df.colNames.getD i [] from
        (List.getD_eq_getElem df.colNames [] hi1).symm]
      rfl
    · rw [List.getElem?_cons_succ, List.getElem?_map,
          List.getElem?_eq_getElem hi2]
      rw [show df.colDtypes[i] = df.colDtypes.getD i Dtype.int64 from
        (List.getD_eq_getElem df.colDtypes Dtype.int64 hi2).symm]
      rfl
    · rw [List.getElem?_cons_succ, List.getElem?_map,
          List.getElem?_eq_getElem hi1]
      rw [show df.colNames[i] = df.colNames.getD i [] from
        (List.getD_eq_getElem df.colNames [] hi1).symm]
      rfl
  refine ⟨rfl, hzip, ?_⟩
  intro i nm ty pr hget
  have hlt : i + 1 < (cols df).length := by
    by_contra hc
    rw [List.getElem?_eq_none (by omega)] at hget
    exact Option.noConfusion hget
  have hbounds : i < df.colNames.length ∧ i < df.colDtypes.length := by
    have hlen : (cols df).length = min (df.colNames.length + 1)
        (min (df.colDtypes.length + 1) (df.colNames.length + 1)) := by
      show (zip3 (_chname df.indexName :: df.colNames.map _chname)
        (_chtype df.indexDtype :: df.colDtypes.map _chtype)
        (pkStr :: df.colNames.map (fun x => if lastStar x then pkStr else []))).length = _
      rw [zip3_length]
      simp
    rw [hlen] at hlt
    omega
  have h2 := hzip i hbounds.1 hbounds.2
  rw [hget] at h2
  have h3 := Option.some.inj h2
  have hpr : pr = if lastStar (df.colNames.getD i []) then pkStr else [] := by
    have := congrArg (fun q => q.2.2) h3
    simpa using this
  cases hls : lastStar (df.colNames.getD i [])
  · rw [hls] at hpr
    simp only [Bool.false_eq_true, if_false] at hpr
    constructor
    · intro hp; rw [hp] at hpr; exact absurd hpr.symm (by decide)
    · intro hp; exact absurd hp (by simp)
  · rw [hls] at hpr
    simp only [if_true] at hpr
    simp [hpr]

/-- C8 witness: the schema components at a concrete DataFrame. -/
theorem C8_witness :
    (cols ⟨"TRACE*".toList, Dtype.int64, ["X_COORD".toList, "LINE*".toList],
      [Dtype.float64, Dtype.obj]⟩)[1]? =
      some ("X_COORD".toList, "double".toList, []) :=
  ((C8_schema ⟨"TRACE*".toList, Dtype.int64, ["X_COORD".toList, "LINE*".toList],
      [Dtype.float64, Dtype.obj]⟩).2.1 0 (by decide) (by decide)).trans (by decide)

/-! ### Row loading (`to_access`) -/

/-- A stored row: the primary-key value (`row[0]`, the DataFrame index)
and the remaining field values (abstracted to integers; the `_chformat`
value coercion is orthogonal to the duplicate-handling logic). -/
abbrev Row : Type := Nat × List Int

/-- Modelled from the spec: the relational store's `insert-row` operation
raises an integrity error (`pyodbc.IntegrityError`) exactly when a row
with the same primary-key value is already stored; on success the new row
is appended. -/
def insertRow (tbl : List Row) (r : Row) : Option (List Row) :=
  if tbl.any (fun q => q.1 == r.1) then none else some (tbl ++ [r])

/-- The row-insertion loop of `to_access`: every row of the DataFrame is
attempted in order; a row whose insert raises the integrity error is
skipped and a warning naming the offending key value (`row[0]`) is
recorded; the loop never aborts.  Returns the final stored table and the
list of warned key values. -/
def to_access (tbl : List Row) : List Row → List Row × List Nat
  | [] => (tbl, [])
  | r :: rs =>
    match insertRow tbl r with
    | some t2 => to_access t2 rs
    | none => ((to_access tbl rs).1, r.1 :: (to_access tbl rs).2)

theorem to_access_grow : ∀ (rows : List Row) (t : List Row) (k : Nat),
    k ∈ t.map Prod.fst → k ∈ (to_access t rows).1.map Prod.fst := by
  intro rows
  induction rows with
  | nil => intro t k hk; exact hk
  | cons r rs ih =>
    intro t k hk
    show k ∈ (match insertRow t r with
      | some t2 => to_access t2 rs
      | none => ((to_access t rs).1, r.1 :: (to_access t rs).2)).1.map Prod.fst
    rw [insertRow]
    by_cases hany : t.any (fun q => q.1 == r.1) = true
    · rw [if_pos hany]
      exact ih t k hk
    · rw [if_neg hany]
      refine ih (t ++ [r]) k ?_
      rw [List.map_append]
      exact List.mem_append_left _ hk

theorem to_access_mem_keys : ∀ (rows : List Row) (t : List Row) (r : Row),
    r ∈ rows → r.1 ∈ (to_access t rows).1.map Prod.fst := by
  intro rows
  induction rows with
  | nil => intro t r hr; simp at hr
  | cons x rs ih =>
    intro t r hr
    show r.1 ∈ (match insertRow t x with
      | some t2 => to_access t2 rs
      | none => ((to_access t rs).1, x.1 :: (to_access t rs).2)).1.map Prod.fst
    rw [insertRow]
    by_cases hany : t.any (fun q => q.1 == x.1) = true
    · rw [if_pos hany]
      rcases List.mem_cons.mp hr with rfl | hr
      · rcases List.any_eq_true.mp hany with ⟨q, hq, hbeq⟩
        have hkeq : q.1 = r.1 := by simpa using hbeq
        exact to_access_grow rs t r.1 (hkeq ▸ List.mem_map_of_mem Prod.fst hq)
      · exact ih t r hr
    · rw [if_neg hany]
      rcases List.mem_cons.mp hr with rfl | hr
      · refine to_access_grow rs (t ++ [r]) r.1 ?_
        rw [List.map_append]
        exact List.mem_append_right _ (by simp)
      · exact ih (t ++ [x]) r hr

theorem to_access_all_dup : ∀ (rows : List Row) (t : List Row),
    (∀ r ∈ rows, r.1 ∈ t.map Prod.fst) →
    to_access t rows = (t, rows.map Prod.fst) := by
  intro rows
  induction rows with
  | nil => intro t _; rfl
  | cons r rs ih =>
    intro t hall
    show (match insertRow t r with
      | some t2 => to_access t2 rs
      | none => ((to_access t rs).1, r.1 :: (to_access t rs).2)) = _
    have hany : t.any (fun q => q.1 == r.1) = true := by
      have hr : r.1 ∈ t.map Prod.fst := hall r (by simp)
      rcases List.mem_map.mp hr with ⟨q, hq, hkeq⟩
      exact List.any_eq_true.mpr ⟨q, hq, by simp [hkeq]⟩
    rw [insertRow, if_pos hany]
    rw [ih t (fun x hx => hall x (by simp [hx]))]
    rfl

theorem nodup_concat {l : List Nat} {x : Nat} (hl : l.Nodup) (hx : x ∉ l) :
    (l ++ [x]).Nodup := by
  rw [List.nodup_append]
  exact ⟨hl, List.nodup_singleton x, fun a ha hax => hx (by
    rw [List.mem_singleton.mp hax] at ha; exact ha)⟩

theorem to_access_nodup : ∀ (rows : List Row) (t : List Row),
    (t.map Prod.fst).Nodup → ((to_access t rows).1.map Prod.fst).Nodup := by
  intro rows
  induction rows with
  | nil => intro t ht; exact ht
  | cons r rs ih =>
    intro t ht
    show ((match insertRow t r with
      | some t2 => to_access t2 rs
      | none => ((to_access t rs).1, r.1 :: (to_access t rs).2)).1.map Prod.fst).Nodup
    rw [insertRow]
    by_cases hany : t.any (fun q => q.1 == r.1) = true
    · rw [if_pos hany]
      exact ih t ht
    · rw [if_neg hany]
      refine ih (t ++ [r]) ?_
      rw [List.map_append]
      refine nodup_concat ht ?_
      intro hmem
      rcases List.mem_map.mp hmem with ⟨q, hq, hkeq⟩
      exact hany (List.any_eq_true.mpr ⟨q, hq, by simp [hkeq]⟩)

/-- C7: (i) loading a concatenation of row batches is loading one after the
other — a constraint violation in an early row never aborts the later
rows; (ii) a row whose key is already stored is skipped, leaves the table
unchanged and logs a warning carrying exactly the offending key value;
(iii) loading the same rows a second time stores nothing new and logs one
skip per row, each naming its key; (iv) a load into an empty table stores
every key at most once. -/
theorem C7_loader :
    (∀ t xs ys : List Row, to_access t (xs ++ ys) =
      ((to_access (to_access t xs).1 ys).1,
        (to_access t xs).2 ++ (to_access (to_access t xs).1 ys).2)) ∧
    (∀ (t : List Row) (r : Row), t.any (fun q => q.1 == r.1) = true →
      to_access t [r] = (t, [r.1])) ∧
    (∀ rows : List Row, to_access ((to_access [] rows).1) rows =
      ((to_access [] rows).1, rows.map Prod.fst)) ∧
    (∀ rows : List Row, ((to_access [] rows).1.map Prod.fst).Nodup) := by
  refine ⟨?_, ?_, ?_, ?_⟩
  · intro t xs ys
    induction xs generalizing t with
    | nil => rfl
    | cons r rs ih =>
      show (match insertRow t r with
        | some t2 => to_access t2 (rs ++ ys)
        | none => ((to_access t (rs ++ ys)).1, r.1 :: (to_access t (rs ++ ys)).2)) = _
      cases hins : insertRow t r with
      | some t2 =>
        simp only
        rw [ih t2]
        show _ = ((to_access (to_access t (r :: rs)).1 ys).1,
          (to_access t (r :: rs)).2 ++ (to_access (to_access t (r :: rs)).1 ys).2)
        rw [show to_access t (r :: rs) = to_access t2 rs by
          show (match insertRow t r with
            | some t2 => to_access t2 rs
            | none => ((to_access t rs).1, r.1 :: (to_access t rs).2)) = _
          rw [hins]]
      | none =>
        simp only
        rw [ih t]
        show _ = ((to_access (to_access t (r :: rs)).1 ys).1,
          (to_access t (r :: rs)).2 ++ (to_access (to_access t (r :: rs)).1 ys).2)
        rw [show to_access t (r :: rs) =
            ((to_access t rs).1, r.1 :: (to_access t rs).2) by
          show (match insertRow t r with
            | some t2 => to_access t2 rs
            | none => ((to_access t rs).1, r.1 :: (to_access t rs).2)) = _
          rw [hins]]
        rfl
  · intro t r hany
    show (match insertRow t r with
      | some t2 => to_access t2 []
      | none => ((to_access t []).1, r.1 :: (to_access t []).2)) = (t, [r.1])
    rw [insertRow, if_pos hany]
    rfl
  · intro rows
    exact to_access_all_dup rows _ (fun r hr => to_access_mem_keys rows [] r hr)
  · intro rows
    exact to_access_nodup rows [] (by simp)

/-- C7 witness: a duplicate-key row is skipped with its key warned, at a
concrete table. -/
theorem C7_witness :
    to_access [(5, ([] : List Int))] [(5, ([] : List Int))] =
      ([(5, ([] : List Int))], [5]) :=
  C7_loader.2.1 [(5, ([] : List Int))] (5, ([] : List Int)) (by decide)

end SeisMap
